import Mathlib

/-!
Shallow embedding of `aa-session-batcher.ts`: an ERC-4337 user-operation
batcher with policy validation, per-target rate limiting, fee backfill and a
retrying submission pipeline.  Hex-encoded numeric strings are modelled by an
executable parser/printer pair (`hexToNat?` / `toHex`) mirroring JavaScript
`BigInt(hexString)` and `'0x' + n.toString(16)`.  The network and file-system
effects of `main` are modelled by an explicit event trace.
-/

abbrev Hex := String

structure UserOperation where
  sender : Hex
  nonce : String
  initCode : Hex
  callData : Hex
  callGasLimit : String
  verificationGasLimit : String
  preVerificationGas : String
  maxFeePerGas : String
  maxPriorityFeePerGas : String
  paymasterAndData : Hex
  signature : Hex
deriving DecidableEq, Repr

structure QueueEntry where
  op : UserOperation
  target : Hex
  session : String
  createdAt : Nat
deriving DecidableEq, Repr

structure Args where
  bundler : String
  entrypoint : Hex
  queue : String
  maxPerTargetPerMin : Nat
  dryRun : Bool
deriving DecidableEq, Repr

/-- The defaults of `parseArgs` (command-line parsing itself is out of scope). -/
def defaultArgs : Args :=
  { bundler := "http://127.0.0.1:3000"
    entrypoint := "0x0576a174D229E3cFA37253523E645A78A0C91B57"
    queue := "queue.json"
    maxPerTargetPerMin := 20
    dryRun := false }

/-- Value of one hexadecimal digit, as accepted by JavaScript `BigInt`. -/
def hexDigit? (c : Char) : Option Nat :=
  if '0' ≤ c ∧ c ≤ '9' then some (c.toNat - '0'.toNat)
  else if 'a' ≤ c ∧ c ≤ 'f' then some (c.toNat - 'a'.toNat + 10)
  else if 'A' ≤ c ∧ c ≤ 'F' then some (c.toNat - 'A'.toNat + 10)
  else none

/-- Left-to-right accumulation of hex digits, `none` on a non-digit. -/
def hexDigitsFrom? (acc : Nat) : List Char → Option Nat
  | [] => some acc
  | c :: cs =>
    match hexDigit? c with
    | some d => hexDigitsFrom? (acc * 16 + d) cs
    | none => none

/-- JavaScript `BigInt(s)` for a `0x`-prefixed hex string.  `BigInt("0x")`
throws, hence `none` on an empty digit sequence; non-hex input also throws,
hence `none`. -/
def hexToNat? (s : String) : Option Nat :=
  match s.data with
  | '0' :: 'x' :: rest => if rest = [] then none else hexDigitsFrom? 0 rest
  | _ => none

/-- Total wrapper used where the source parses strings it assumes well-formed
(`BigInt` would throw on malformed input; all modelled inputs are well-formed
hex, where the wrapper agrees with `BigInt`). -/
def hexToNatD (s : String) : Nat := (hexToNat? s).getD 0

/-- The character for one hex digit (lower case, as `toString(16)` emits). -/
def hexChar (d : Nat) : Char :=
  if d < 10 then Char.ofNat ('0'.toNat + d) else Char.ofNat ('a'.toNat + (d - 10))

/-- Digits of `n` in base 16, most significant first, prepended to `acc`;
fuel-structured recursion (any `fuel > n` is enough). -/
def natToHexCore : Nat → Nat → List Char → List Char
  | 0, _, acc => acc
  | fuel + 1, n, acc =>
    if n < 16 then hexChar n :: acc
    else natToHexCore fuel (n / 16) (hexChar (n % 16) :: acc)

/-- JavaScript `'0x' + BigInt(n).toString(16)` (the source's `hex` helper and
the fee-string constructors of `estimateFees`). -/
def toHex (n : Nat) : String := "0x" ++ String.mk (natToHexCore (n + 1) n [])

structure Policy where
  blockedTargets : List String
  maxCallGas : Nat
  maxFeeGwei : Nat
  maxPriorityGwei : Nat
deriving DecidableEq, Repr

/-- The source's global `POLICY` constant. -/
def POLICY : Policy :=
  { blockedTargets := [], maxCallGas := 6000000, maxFeeGwei := 200, maxPriorityGwei := 20 }

/-- `gweiToWeiHex` from the source: a hex *string* for `g` gwei in wei. -/
def gweiToWeiHex (g : Nat) : String := toHex (g * 1000000000)

/-- `validate` from the source, with the global `POLICY` made an explicit
parameter.  Source lines 103-104 compare the parsed fees against the
`gweiToWeiHex` bounds, but the bodies of those `if` statements are empty
comments, so no fee violation is ever recorded; the embedding reproduces
that faithfully by omitting the dead comparisons. -/
def validate (policy : Policy) (op : UserOperation) : List String :=
  let errs0 : List String := []
  let callGas := hexToNatD op.callGasLimit
  let errs1 :=
    if callGas > policy.maxCallGas then
      errs0 ++ ["callGasLimit too high: " ++ toString callGas]
    else errs0
  if op.initCode.length > 2 ∧ op.signature = "0x" then
    errs1 ++ ["initCode present but signature empty (likely invalid)"]
  else errs1

/-- One `Map.set` update of the insertion-ordered target map of
`groupByTarget`: append to an existing key's bucket, else append a new
bucket at the end. -/
def mapInsert (m : List (String × List QueueEntry)) (k : String) (e : QueueEntry) :
    List (String × List QueueEntry) :=
  match m with
  | [] => [(k, [e])]
  | (k', es) :: rest =>
    if k' = k then (k', es ++ [e]) :: rest else (k', es) :: mapInsert rest k e

/-- `groupByTarget` from the source: a JavaScript `Map` keyed by the
lower-cased target, modelled as an insertion-ordered association list. -/
def groupByTarget (items : List QueueEntry) : List (String × List QueueEntry) :=
  items.foldl (fun m it => mapInsert m it.target.toLower it) []

structure SelectResult where
  sent : List QueueEntry
  keep : List QueueEntry
  dropped : List QueueEntry
deriving DecidableEq, Repr

/-- The inner loop over the rate-limit survivors of one target group (source
lines 156-168).  `sent` and `keep` are exactly the entries the source pushes
to `toSend` and `keep`; `dropped` records the validation failures the source
merely logs and discards. -/
def pickedPass (policy : Policy) (target : String) : List QueueEntry → SelectResult
  | [] => ⟨[], [], []⟩
  | it :: its =>
    let r := pickedPass policy target its
    if policy.blockedTargets.contains target then ⟨r.sent, it :: r.keep, r.dropped⟩
    else if validate policy it.op ≠ [] then ⟨r.sent, r.keep, it :: r.dropped⟩
    else ⟨it :: r.sent, r.keep, r.dropped⟩

/-- One iteration of the source's `for (const [target, items] of byTarget)`
body (lines 150-170).  `sentRecently` is the source's hard-coded `0`. -/
def selectGroup (policy : Policy) (cap : Nat) (target : String) (items : List QueueEntry) :
    SelectResult :=
  let sentRecently := 0
  let allowed := max 0 (cap - sentRecently)
  let picked := items.take allowed
  let rest := items.drop allowed
  let r := pickedPass policy target picked
  ⟨r.sent, r.keep ++ rest, r.dropped⟩

/-- The batch-selection phase of `main` (source lines 144-170): the group loop
pushes into the shared `toSend` and `keep` arrays group by group, i.e. it
concatenates the per-group results in map-insertion order. -/
def select (policy : Policy) (cap : Nat) (queue : List QueueEntry) : SelectResult :=
  let parts := (groupByTarget queue).map fun p => selectGroup policy cap p.1 p.2
  ⟨(parts.map SelectResult.sent).flatten,
   (parts.map SelectResult.keep).flatten,
   (parts.map SelectResult.dropped).flatten⟩

structure Fees where
  maxFeePerGas : String
  maxPriorityFeePerGas : String
deriving DecidableEq, Repr

/-- `estimateFees`, given the relay's `eth_gasPrice` answer `base`. -/
def estimateFees (base : Nat) : Fees :=
  let prio := base / 10
  { maxFeePerGas := toHex (base * 2), maxPriorityFeePerGas := toHex prio }

/-- The fee backfill of source lines 179-182, for one operation: each field is
replaced only when it is the exact string `"0x0"`. -/
def backfillOp (fees : Fees) (op : UserOperation) : UserOperation :=
  let op1 :=
    if op.maxFeePerGas = "0x0" then { op with maxFeePerGas := fees.maxFeePerGas } else op
  if op1.maxPriorityFeePerGas = "0x0" then
    { op1 with maxPriorityFeePerGas := fees.maxPriorityFeePerGas }
  else op1

/-- The observable effects of a run: relay RPC calls, backoff sleeps (in
seconds) and queue-store saves. -/
inductive Event where
  | feeQuery : Event
  | submit : List UserOperation → Event
  | sleep : Nat → Event
  | save : List QueueEntry → Event
deriving DecidableEq, Repr

inductive Outcome where
  | emptyQueue : Outcome
  | nothingSelected : Outcome
  | estimationError : Outcome
  | dryRun : Nat → Outcome
  | success : Outcome
  | exhausted : Outcome
deriving DecidableEq, Repr

/-- The retry loop of source lines 189-205.  `fuel` is `5 - attempt`.  On a
failure the attempt counter is incremented first and the sleep is
`min(60, 2 ^ attempt)` seconds with the incremented counter, so the final
failed attempt also sleeps before the loop exits. -/
def retryLoop (ops : List UserOperation) (keep : List QueueEntry) (oracle : Nat → Bool) :
    Nat → Nat → List Event × Outcome
  | _, 0 => ([], Outcome.exhausted)
  | attempt, fuel + 1 =>
    if oracle attempt then ([Event.submit ops, Event.save keep], Outcome.success)
    else
      let wait := min 60 (2 ^ (attempt + 1))
      let r := retryLoop ops keep oracle (attempt + 1) fuel
      (Event.submit ops :: Event.sleep wait :: r.1, r.2)

/-- `main` (source lines 134-207; Lean reserves the name `main` for executables, so the embedding is called `mainRun`) as a function of the loaded queue, the fee
oracle (`some base` when `eth_gasPrice` answers `base`, `none` when the RPC
call fails or returns a non-numeric result, in which case `estimateFees`
throws right after the query) and the per-attempt submission oracle. -/
def mainRun (args : Args) (policy : Policy) (queue : List QueueEntry)
    (feeOracle : Option Nat) (submitOracle : Nat → Bool) : List Event × Outcome :=
  if queue.length = 0 then ([], Outcome.emptyQueue)
  else
    let r := select policy args.maxPerTargetPerMin queue
    let toSend := r.sent.map QueueEntry.op
    if toSend.length = 0 then ([], Outcome.nothingSelected)
    else
      match feeOracle with
      | none => ([Event.feeQuery], Outcome.estimationError)
      | some base =>
        let fees := estimateFees base
        let sendOps := toSend.map (backfillOp fees)
        if args.dryRun then ([Event.feeQuery], Outcome.dryRun sendOps.length)
        else
          let r2 := retryLoop sendOps r.keep submitOracle 0 5
          (Event.feeQuery :: r2.1, r2.2)

/-- The store persisted at the end of a run: the payload of the last `save`
event, or the initial store when no save happened (`saveQueue` is an atomic
overwrite of the whole file). -/
def finalStore (initial : List QueueEntry) (events : List Event) : List QueueEntry :=
  events.foldl (fun st e => match e with | Event.save s => s | _ => st) initial

/-! ### Correctness of the hex printer against the hex parser -/

/-- The digit list `toHex` wraps. -/
def hexDigitsOf (n : Nat) : List Char := natToHexCore (n + 1) n []

theorem hexDigit_hexChar (d : Nat) (h : d < 16) : hexDigit? (hexChar d) = some d := by
  interval_cases d <;> decide

theorem natToHexCore_acc (fuel : Nat) : ∀ n acc,
    natToHexCore fuel n acc = natToHexCore fuel n [] ++ acc := by
  induction fuel with
  | zero => intro n acc; simp [natToHexCore]
  | succ fuel ih =>
    intro n acc
    by_cases h : n < 16
    · simp [natToHexCore, h]
    · simp only [natToHexCore, if_neg h]
      rw [ih (n / 16) (hexChar (n % 16) :: acc), ih (n / 16) [hexChar (n % 16)]]
      simp

theorem natToHexCore_fuel (f₁ : Nat) : ∀ f₂ n acc, n < f₁ → n < f₂ →
    natToHexCore f₁ n acc = natToHexCore f₂ n acc := by
  induction f₁ with
  | zero => intro f₂ n acc h; omega
  | succ f₁ ih =>
    intro f₂ n acc h₁ h₂
    match f₂, h₂ with
    | f₂ + 1, h₂ =>
      by_cases h : n < 16
      · simp [natToHexCore, h]
      · simp only [natToHexCore, if_neg h]
        exact ih f₂ (n / 16) (hexChar (n % 16) :: acc) (by omega) (by omega)

theorem hexDigitsOf_lt (n : Nat) (h : n < 16) : hexDigitsOf n = [hexChar n] := by
  simp [hexDigitsOf, natToHexCore, h]

theorem hexDigitsOf_ge (n : Nat) (h : 16 ≤ n) :
    hexDigitsOf n = hexDigitsOf (n / 16) ++ [hexChar (n % 16)] := by
  have h16 : ¬ n < 16 := by omega
  show natToHexCore (n + 1) n [] = _
  rw [show n + 1 = n + 1 by rfl]
  simp only [natToHexCore, if_neg h16]
  rw [natToHexCore_acc, natToHexCore_fuel n (n / 16 + 1) (n / 16) []
    (by omega) (by omega)]
  rfl

theorem hexDigitsOf_ne_nil (n : Nat) : hexDigitsOf n ≠ [] := by
  by_cases h : n < 16
  · rw [hexDigitsOf_lt n h]; simp
  · rw [hexDigitsOf_ge n (by omega)]; simp

theorem hexDigitsFrom?_append (l₁ : List Char) : ∀ l₂ acc,
    hexDigitsFrom? acc (l₁ ++ l₂) =
      (hexDigitsFrom? acc l₁).bind fun v => hexDigitsFrom? v l₂ := by
  induction l₁ with
  | nil => intro l₂ acc; simp [hexDigitsFrom?]
  | cons c cs ih =>
    intro l₂ acc
    simp only [List.cons_append, hexDigitsFrom?]
    cases hexDigit? c with
    | none => rfl
    | some d => exact ih l₂ (acc * 16 + d)

theorem hexDigitsFrom?_hexDigitsOf (n : Nat) : ∀ acc,
    hexDigitsFrom? acc (hexDigitsOf n) =
      some (acc * 16 ^ (hexDigitsOf n).length + n) := by
  induction n using Nat.strong_induction_on with
  | _ n ih =>
    intro acc
    by_cases h : n < 16
    · rw [hexDigitsOf_lt n h]
      simp [hexDigitsFrom?, hexDigit_hexChar n h]
    · have h16 : 16 ≤ n := by omega
      rw [hexDigitsOf_ge n h16, hexDigitsFrom?_append]
      rw [ih (n / 16) (by omega) acc]
      simp only [Option.some_bind, hexDigitsFrom?, hexDigit_hexChar (n % 16) (by omega)]
      rw [List.length_append, List.length_singleton, pow_succ, ← mul_assoc]
      generalize acc * 16 ^ (hexDigitsOf (n / 16)).length = t
      congr 1
      omega

theorem data_toHex (n : Nat) : (toHex n).data = '0' :: 'x' :: hexDigitsOf n := by
  show ("0x" ++ String.mk (hexDigitsOf n)).data = _
  rw [String.data_append]
  rfl

theorem hexToNat?_toHex (n : Nat) : hexToNat? (toHex n) = some n := by
  rw [hexToNat?, data_toHex]
  simp only [if_neg (hexDigitsOf_ne_nil n)]
  rw [hexDigitsFrom?_hexDigitsOf n 0]
  simp

theorem hexToNatD_toHex (n : Nat) : hexToNatD (toHex n) = n := by
  rw [hexToNatD, hexToNat?_toHex]
  rfl

/-! ### Structure of `groupByTarget` -/

/-- The grouping key predicate: entry `e` belongs to target bucket `t`. -/
def keyIs (t : String) (e : QueueEntry) : Bool := decide (e.target.toLower = t)

/-- First-occurrence lookup in the association list modelling the `Map`. -/
def groupsLookup (m : List (String × List QueueEntry)) (t : String) : List QueueEntry :=
  match m with
  | [] => []
  | (k, es) :: rest => if k = t then es else groupsLookup rest t

theorem groupsLookup_mapInsert (m : List (String × List QueueEntry)) (k t : String)
    (e : QueueEntry) :
    groupsLookup (mapInsert m k e) t =
      if k = t then groupsLookup m t ++ [e] else groupsLookup m t := by
  induction m with
  | nil => by_cases h : k = t <;> simp [mapInsert, groupsLookup, h]
  | cons p rest ih =>
    obtain ⟨k', es⟩ := p
    by_cases h1 : k' = k
    · by_cases h2 : k = t
      · subst h1; subst h2; simp [mapInsert, groupsLookup]
      · subst h1
        have h3 : ¬ k' = t := h2
        simp [mapInsert, groupsLookup, h2, h3]
    · by_cases h2 : k' = t
      · subst h2
        have h3 : ¬ k = k' := fun h => h1 h.symm
        simp [mapInsert, groupsLookup, h1, h3]
      · simp [mapInsert, groupsLookup, h1, h2, ih]

theorem groupsLookup_foldl (items : List QueueEntry) :
    ∀ (m : List (String × List QueueEntry)) (t : String),
    groupsLookup (items.foldl (fun m it => mapInsert m it.target.toLower it) m) t =
      groupsLookup m t ++ items.filter (keyIs t) := by
  induction items with
  | nil => intro m t; simp
  | cons it its ih =>
    intro m t
    rw [List.foldl_cons, ih]
    rw [groupsLookup_mapInsert]
    by_cases h : it.target.toLower = t
    · simp [keyIs, h, List.filter_cons]
    · simp [keyIs, h, List.filter_cons]

theorem groupsLookup_groupByTarget (queue : List QueueEntry) (t : String) :
    groupsLookup (groupByTarget queue) t = queue.filter (keyIs t) := by
  rw [groupByTarget, groupsLookup_foldl]
  rfl

theorem keys_mapInsert (m : List (String × List QueueEntry)) (k : String) (e : QueueEntry) :
    (mapInsert m k e).map Prod.fst =
      if k ∈ m.map Prod.fst then m.map Prod.fst else m.map Prod.fst ++ [k] := by
  induction m with
  | nil => simp [mapInsert]
  | cons p rest ih =>
    obtain ⟨k', es⟩ := p
    by_cases h1 : k' = k
    · subst h1; simp [mapInsert]
    · have h2 : ¬ k = k' := fun h => h1 h.symm
      by_cases h3 : k ∈ rest.map Prod.fst <;>
        simp [mapInsert, h1, h2, h3, ih]

theorem keysNodup_mapInsert (m : List (String × List QueueEntry)) (k : String)
    (e : QueueEntry) (h : (m.map Prod.fst).Nodup) :
    ((mapInsert m k e).map Prod.fst).Nodup := by
  rw [keys_mapInsert]
  by_cases h1 : k ∈ m.map Prod.fst
  · simpa [h1] using h
  · simp only [if_neg h1]
    rw [List.nodup_append]
    refine ⟨h, List.nodup_singleton k, ?_⟩
    intro a ha hb
    simp only [List.mem_singleton] at hb
    subst hb
    exact h1 ha

theorem keysNodup_foldl (items : List QueueEntry) :
    ∀ (m : List (String × List QueueEntry)), (m.map Prod.fst).Nodup →
    ((items.foldl (fun m it => mapInsert m it.target.toLower it) m).map Prod.fst).Nodup := by
  induction items with
  | nil => intro m h; simpa using h
  | cons it its ih =>
    intro m h
    rw [List.foldl_cons]
    exact ih _ (keysNodup_mapInsert m it.target.toLower it h)

theorem keysNodup_groupByTarget (queue : List QueueEntry) :
    ((groupByTarget queue).map Prod.fst).Nodup :=
  keysNodup_foldl queue [] (by simp)

theorem groupsLookup_of_mem (m : List (String × List QueueEntry))
    (h : (m.map Prod.fst).Nodup) (p : String × List QueueEntry) (hp : p ∈ m) :
    groupsLookup m p.1 = p.2 := by
  induction m with
  | nil => cases hp
  | cons q rest ih =>
    obtain ⟨k, es⟩ := q
    rcases List.mem_cons.mp hp with h1 | h1
    · subst h1; simp [groupsLookup]
    · have hk : k ≠ p.1 := by
        intro hkp
        have : p.1 ∈ rest.map Prod.fst := List.mem_map_of_mem Prod.fst h1
        rw [List.map_cons] at h
        exact (List.nodup_cons.mp h).1 (hkp ▸ this)
      simp only [groupsLookup, if_neg hk]
      exact ih (List.nodup_cons.mp (by simpa using h)).2 h1

theorem mem_of_groupsLookup_ne_nil (m : List (String × List QueueEntry)) (t : String)
    (h : groupsLookup m t ≠ []) : (t, groupsLookup m t) ∈ m := by
  induction m with
  | nil => simp [groupsLookup] at h
  | cons q rest ih =>
    obtain ⟨k, es⟩ := q
    by_cases hk : k = t
    · subst hk; simp [groupsLookup]
    · simp only [groupsLookup, if_neg hk] at h ⊢
      exact List.mem_cons_of_mem _ (ih h)

theorem flatten_mapInsert_perm (m : List (String × List QueueEntry)) (k : String)
    (e : QueueEntry) :
    ((mapInsert m k e).map Prod.snd).flatten.Perm ((m.map Prod.snd).flatten ++ [e]) := by
  induction m with
  | nil => simp [mapInsert]
  | cons p rest ih =>
    obtain ⟨k', es⟩ := p
    by_cases h1 : k' = k
    · subst h1
      have hstep : mapInsert ((k', es) :: rest) k' e = (k', es ++ [e]) :: rest := by
        simp [mapInsert]
      rw [hstep]
      simp only [List.map_cons, List.flatten_cons, List.append_assoc]
      exact List.Perm.append_left es List.perm_append_comm
    · have hstep : mapInsert ((k', es) :: rest) k e = (k', es) :: mapInsert rest k e := by
        simp [mapInsert, h1]
      rw [hstep]
      simp only [List.map_cons, List.flatten_cons, List.append_assoc]
      exact List.Perm.append_left es ih

theorem flatten_foldl_perm (items : List QueueEntry) :
    ∀ (m : List (String × List QueueEntry)),
    ((items.foldl (fun m it => mapInsert m it.target.toLower it) m).map Prod.snd).flatten.Perm
      ((m.map Prod.snd).flatten ++ items) := by
  induction items with
  | nil => intro m; simp
  | cons it its ih =>
    intro m
    rw [List.foldl_cons]
    refine (ih _).trans ?_
    have h1 := flatten_mapInsert_perm m it.target.toLower it
    refine (h1.append_right its).trans ?_
    rw [List.append_assoc]
    exact List.Perm.append_left _ (by simp)

theorem flatten_groupByTarget_perm (queue : List QueueEntry) :
    ((groupByTarget queue).map Prod.snd).flatten.Perm queue := by
  have := flatten_foldl_perm queue []
  simpa using this

theorem mem_groupByTarget_snd (queue : List QueueEntry) (p : String × List QueueEntry)
    (hp : p ∈ groupByTarget queue) : p.2 = queue.filter (keyIs p.1) := by
  rw [← groupsLookup_groupByTarget]
  exact (groupsLookup_of_mem _ (keysNodup_groupByTarget queue) p hp).symm

theorem key_of_mem_group (queue : List QueueEntry) (p : String × List QueueEntry)
    (hp : p ∈ groupByTarget queue) (e : QueueEntry) (he : e ∈ p.2) :
    e.target.toLower = p.1 := by
  rw [mem_groupByTarget_snd queue p hp] at he
  have := List.of_mem_filter he
  simpa [keyIs] using this

/-! ### Structure of the batch selection -/

theorem pickedPass_nil (policy : Policy) (target : String) :
    pickedPass policy target [] = ⟨[], [], []⟩ := rfl

theorem pickedPass_cons_blocked (policy : Policy) (target : String) (it : QueueEntry)
    (its : List QueueEntry) (hb : policy.blockedTargets.contains target = true) :
    pickedPass policy target (it :: its) =
      ⟨(pickedPass policy target its).sent, it :: (pickedPass policy target its).keep,
        (pickedPass policy target its).dropped⟩ := by
  have hb' : target ∈ policy.blockedTargets := by simpa using hb
  simp [pickedPass, hb']

theorem pickedPass_cons_dropped (policy : Policy) (target : String) (it : QueueEntry)
    (its : List QueueEntry) (hb : policy.blockedTargets.contains target = false)
    (hv : validate policy it.op ≠ []) :
    pickedPass policy target (it :: its) =
      ⟨(pickedPass policy target its).sent, (pickedPass policy target its).keep,
        it :: (pickedPass policy target its).dropped⟩ := by
  have hb' : target ∉ policy.blockedTargets := by simpa using hb
  simp [pickedPass, hb', hv]

theorem pickedPass_cons_sent (policy : Policy) (target : String) (it : QueueEntry)
    (its : List QueueEntry) (hb : policy.blockedTargets.contains target = false)
    (hv : validate policy it.op = []) :
    pickedPass policy target (it :: its) =
      ⟨it :: (pickedPass policy target its).sent, (pickedPass policy target its).keep,
        (pickedPass policy target its).dropped⟩ := by
  have hb' : target ∉ policy.blockedTargets := by simpa using hb
  simp [pickedPass, hb', hv]

theorem pickedPass_perm (policy : Policy) (target : String) (l : List QueueEntry) :
    ((pickedPass policy target l).sent ++ (pickedPass policy target l).keep ++
      (pickedPass policy target l).dropped).Perm l := by
  induction l with
  | nil => simp [pickedPass_nil]
  | cons it its ih =>
    cases hb : policy.blockedTargets.contains target with
    | true =>
      rw [pickedPass_cons_blocked policy target it its hb]
      exact (List.perm_middle.append_right _).trans (List.Perm.cons it ih)
    | false =>
      by_cases hv : validate policy it.op = []
      · rw [pickedPass_cons_sent policy target it its hb hv]
        exact List.Perm.cons it ih
      · rw [pickedPass_cons_dropped policy target it its hb hv]
        exact List.perm_middle.trans (List.Perm.cons it ih)

theorem pickedPass_sent_sublist (policy : Policy) (target : String) (l : List QueueEntry) :
    (pickedPass policy target l).sent.Sublist l := by
  induction l with
  | nil => simp [pickedPass_nil]
  | cons it its ih =>
    cases hb : policy.blockedTargets.contains target with
    | true =>
      rw [pickedPass_cons_blocked policy target it its hb]
      exact ih.cons it
    | false =>
      by_cases hv : validate policy it.op = []
      · rw [pickedPass_cons_sent policy target it its hb hv]
        exact ih.cons₂ it
      · rw [pickedPass_cons_dropped policy target it its hb hv]
        exact ih.cons it

theorem pickedPass_dropped_spec (policy : Policy) (target : String) (l : List QueueEntry)
    (e : QueueEntry) (he : e ∈ (pickedPass policy target l).dropped) :
    validate policy e.op ≠ [] ∧ e ∈ l := by
  induction l with
  | nil => simp [pickedPass_nil] at he
  | cons it its ih =>
    cases hb : policy.blockedTargets.contains target with
    | true =>
      rw [pickedPass_cons_blocked policy target it its hb] at he
      exact ⟨(ih he).1, List.mem_cons_of_mem it (ih he).2⟩
    | false =>
      by_cases hv : validate policy it.op = []
      · rw [pickedPass_cons_sent policy target it its hb hv] at he
        exact ⟨(ih he).1, List.mem_cons_of_mem it (ih he).2⟩
      · rw [pickedPass_cons_dropped policy target it its hb hv] at he
        rcases List.mem_cons.mp he with h | h
        · subst h; exact ⟨hv, List.mem_cons_self e its⟩
        · exact ⟨(ih h).1, List.mem_cons_of_mem it (ih h).2⟩

theorem pickedPass_blocked_eq (policy : Policy) (target : String) (l : List QueueEntry)
    (hb : policy.blockedTargets.contains target = true) :
    pickedPass policy target l = ⟨[], l, []⟩ := by
  induction l with
  | nil => rfl
  | cons it its ih =>
    rw [pickedPass_cons_blocked policy target it its hb, ih]

theorem selectGroup_eq (policy : Policy) (cap : Nat) (target : String)
    (items : List QueueEntry) :
    selectGroup policy cap target items =
      ⟨(pickedPass policy target (items.take cap)).sent,
       (pickedPass policy target (items.take cap)).keep ++ items.drop cap,
       (pickedPass policy target (items.take cap)).dropped⟩ := by
  simp [selectGroup, Nat.zero_max]

theorem perm_shuffle {α : Type} (a b c d e f : List α) :
    ((a ++ b) ++ (c ++ d) ++ (e ++ f)).Perm ((a ++ c ++ e) ++ (b ++ d ++ f)) := by
  rw [← Multiset.coe_eq_coe]
  simp only [← Multiset.coe_add]
  abel

theorem selectGroup_perm (policy : Policy) (cap : Nat) (target : String)
    (items : List QueueEntry) :
    ((selectGroup policy cap target items).sent ++ (selectGroup policy cap target items).keep ++
      (selectGroup policy cap target items).dropped).Perm items := by
  rw [selectGroup_eq]
  have h1 := pickedPass_perm policy target (items.take cap)
  have h2 : items.take cap ++ items.drop cap = items := List.take_append_drop cap items
  rw [← Multiset.coe_eq_coe] at h1 ⊢
  conv_rhs => rw [← h2]
  simp only [← Multiset.coe_add] at h1 ⊢
  rw [← h1]
  abel

theorem select_parts_perm (policy : Policy) (cap : Nat)
    (groups : List (String × List QueueEntry)) :
    ((((groups.map fun p => selectGroup policy cap p.1 p.2).map SelectResult.sent).flatten ++
      ((groups.map fun p => selectGroup policy cap p.1 p.2).map SelectResult.keep).flatten ++
      ((groups.map fun p => selectGroup policy cap p.1 p.2).map SelectResult.dropped).flatten).Perm
      ((groups.map Prod.snd).flatten)) := by
  induction groups with
  | nil => simp
  | cons g gs ih =>
    simp only [List.map_cons, List.flatten_cons]
    exact (perm_shuffle _ _ _ _ _ _).trans
      ((selectGroup_perm policy cap g.1 g.2).append ih)

/-- C3's partition backbone: `select` permutes the queue into sent, kept and
dropped entries. -/
theorem select_perm (policy : Policy) (cap : Nat) (queue : List QueueEntry) :
    ((select policy cap queue).sent ++ (select policy cap queue).keep ++
      (select policy cap queue).dropped).Perm queue :=
  (select_parts_perm policy cap (groupByTarget queue)).trans
    (flatten_groupByTarget_perm queue)

theorem select_sent_def (policy : Policy) (cap : Nat) (queue : List QueueEntry) :
    (select policy cap queue).sent =
      (((groupByTarget queue).map fun p => selectGroup policy cap p.1 p.2).map
        SelectResult.sent).flatten := rfl

theorem select_keep_def (policy : Policy) (cap : Nat) (queue : List QueueEntry) :
    (select policy cap queue).keep =
      (((groupByTarget queue).map fun p => selectGroup policy cap p.1 p.2).map
        SelectResult.keep).flatten := rfl

theorem select_dropped_def (policy : Policy) (cap : Nat) (queue : List QueueEntry) :
    (select policy cap queue).dropped =
      (((groupByTarget queue).map fun p => selectGroup policy cap p.1 p.2).map
        SelectResult.dropped).flatten := rfl

theorem select_dropped_spec (policy : Policy) (cap : Nat) (queue : List QueueEntry)
    (e : QueueEntry) (he : e ∈ (select policy cap queue).dropped) :
    validate policy e.op ≠ [] ∧ e ∈ queue := by
  have hq : e ∈ queue := by
    refine (select_perm policy cap queue).subset ?_
    simp only [List.append_assoc, List.mem_append]
    exact Or.inr (Or.inr he)
  rw [select_dropped_def] at he
  rcases List.mem_flatten.mp he with ⟨l, hl, hel⟩
  rcases List.mem_map.mp hl with ⟨part, hpart, rfl⟩
  rcases List.mem_map.mp hpart with ⟨p, _, rfl⟩
  rw [selectGroup_eq] at hel
  exact ⟨(pickedPass_dropped_spec policy p.1 _ e hel).1, hq⟩

theorem groupsLookup_ne_nil_of_mem (queue : List QueueEntry) (t : String) (e : QueueEntry)
    (he : e ∈ queue.filter (keyIs t)) : groupsLookup (groupByTarget queue) t ≠ [] := by
  rw [groupsLookup_groupByTarget]
  intro h
  rw [h] at he
  cases he

theorem select_keep_of_group_mem (policy : Policy) (cap : Nat) (queue : List QueueEntry)
    (p : String × List QueueEntry) (hp : p ∈ groupByTarget queue) (e : QueueEntry)
    (he : e ∈ (selectGroup policy cap p.1 p.2).keep) : e ∈ (select policy cap queue).keep := by
  rw [select_keep_def]
  refine List.mem_flatten.mpr ⟨(selectGroup policy cap p.1 p.2).keep, ?_, he⟩
  exact List.mem_map_of_mem SelectResult.keep
    (List.mem_map_of_mem (fun p => selectGroup policy cap p.1 p.2) hp)

/-- Entries of a blocked target are retained by `select`. -/
theorem select_blocked_kept (policy : Policy) (cap : Nat) (queue : List QueueEntry)
    (e : QueueEntry) (he : e ∈ queue) (hb : e.target.toLower ∈ policy.blockedTargets) :
    e ∈ (select policy cap queue).keep := by
  set t := e.target.toLower with ht
  have hef : e ∈ queue.filter (keyIs t) := by
    refine List.mem_filter.mpr ⟨he, ?_⟩
    simp [keyIs]
  have hne := groupsLookup_ne_nil_of_mem queue t e hef
  have hmem := mem_of_groupsLookup_ne_nil (groupByTarget queue) t hne
  refine select_keep_of_group_mem policy cap queue _ hmem e ?_
  rw [selectGroup_eq]
  have hb' : policy.blockedTargets.contains t = true := by simpa using hb
  rw [pickedPass_blocked_eq policy t _ hb']
  have : e ∈ groupsLookup (groupByTarget queue) t := by
    rw [groupsLookup_groupByTarget]; exact hef
  simpa [List.take_append_drop] using this

/-- Entries beyond the per-target cap are retained by `select`. -/
theorem select_overcap_kept (policy : Policy) (cap : Nat) (queue : List QueueEntry)
    (t : String) (e : QueueEntry) (he : e ∈ (queue.filter (keyIs t)).drop cap) :
    e ∈ (select policy cap queue).keep := by
  have hef : e ∈ queue.filter (keyIs t) := List.mem_of_mem_drop he
  have hne := groupsLookup_ne_nil_of_mem queue t e hef
  have hmem := mem_of_groupsLookup_ne_nil (groupByTarget queue) t hne
  refine select_keep_of_group_mem policy cap queue _ hmem e ?_
  rw [selectGroup_eq]
  refine List.mem_append_right _ ?_
  have hlk : groupsLookup (groupByTarget queue) t = queue.filter (keyIs t) :=
    groupsLookup_groupByTarget queue t
  simpa [hlk] using he

theorem groupsLookup_eq_nil_of_not_mem (m : List (String × List QueueEntry)) (t : String)
    (h : t ∉ m.map Prod.fst) : groupsLookup m t = [] := by
  induction m with
  | nil => rfl
  | cons q rest ih =>
    obtain ⟨k, es⟩ := q
    simp only [List.map_cons, List.mem_cons] at h
    push_neg at h
    have hk : ¬ k = t := fun hh => h.1 hh.symm
    simp only [groupsLookup, if_neg hk]
    exact ih h.2

theorem selectGroup_sent_key (policy : Policy) (cap : Nat) (queue : List QueueEntry)
    (p : String × List QueueEntry) (hp : p ∈ groupByTarget queue) (e : QueueEntry)
    (he : e ∈ (selectGroup policy cap p.1 p.2).sent) : e.target.toLower = p.1 := by
  rw [selectGroup_eq] at he
  have : e ∈ p.2 := List.take_subset cap p.2 ((pickedPass_sent_sublist policy p.1 _).subset he)
  exact key_of_mem_group queue p hp e this

theorem parts_sent_filter (policy : Policy) (cap : Nat) (t : String) (queue : List QueueEntry) :
    ∀ (groups : List (String × List QueueEntry)),
    (groups.map Prod.fst).Nodup →
    (∀ p ∈ groups, p ∈ groupByTarget queue) →
    ((((groups.map fun p => selectGroup policy cap p.1 p.2).map SelectResult.sent).flatten).filter
        (keyIs t)) =
      (pickedPass policy t ((groupsLookup groups t).take cap)).sent := by
  intro groups
  induction groups with
  | nil => intro _ _; simp [groupsLookup, pickedPass_nil]
  | cons q gs ih =>
    intro hnd hsub
    obtain ⟨k, es⟩ := q
    simp only [List.map_cons, List.flatten_cons, List.filter_append]
    rw [List.map_cons, List.nodup_cons] at hnd
    have hq : (k, es) ∈ groupByTarget queue := hsub (k, es) (List.mem_cons_self _ _)
    by_cases hk : k = t
    · subst hk
      have h1 : ((selectGroup policy cap k es).sent.filter (keyIs k)) =
          (selectGroup policy cap k es).sent := by
        refine List.filter_eq_self.mpr ?_
        intro e hee
        have := selectGroup_sent_key policy cap queue (k, es) hq e hee
        simp [keyIs, this]
      have h2 : groupsLookup gs k = [] := groupsLookup_eq_nil_of_not_mem gs k hnd.1
      rw [h1, ih hnd.2 (fun p hp => hsub p (List.mem_cons_of_mem _ hp)), h2]
      simp only [groupsLookup, if_pos rfl]
      rw [selectGroup_eq]
      simp [pickedPass_nil]
    · have h1 : ((selectGroup policy cap k es).sent.filter (keyIs t)) = [] := by
        refine List.filter_eq_nil_iff.mpr ?_
        intro e hee
        have := selectGroup_sent_key policy cap queue (k, es) hq e hee
        simp [keyIs, this, hk]
      rw [h1, ih hnd.2 (fun p hp => hsub p (List.mem_cons_of_mem _ hp))]
      simp only [groupsLookup, if_neg hk, List.nil_append]

theorem mem_groupByTarget_self (queue : List QueueEntry) (p : String × List QueueEntry)
    (hp : p ∈ groupByTarget queue) : p ∈ groupByTarget queue := hp

/-- The toSend candidates for target key `t` are exactly the survivors of the
inner loop run on the first `cap` entries of `t`'s bucket, in queue order. -/
theorem select_sent_filter (policy : Policy) (cap : Nat) (queue : List QueueEntry)
    (t : String) :
    (select policy cap queue).sent.filter (keyIs t) =
      (pickedPass policy t ((queue.filter (keyIs t)).take cap)).sent := by
  rw [select_sent_def]
  have := parts_sent_filter policy cap t queue (groupByTarget queue)
    (keysNodup_groupByTarget queue) (fun p hp => hp)
  rw [groupsLookup_groupByTarget] at this
  exact this

/-! ### The submission pipeline and run-level lemmas -/

theorem retryLoop_no_save_of_exhausted (ops : List UserOperation) (keep : List QueueEntry)
    (oracle : Nat → Bool) (fuel : Nat) : ∀ attempt,
    (retryLoop ops keep oracle attempt fuel).2 = Outcome.exhausted →
    ∀ s, Event.save s ∉ (retryLoop ops keep oracle attempt fuel).1 := by
  induction fuel with
  | zero => intro attempt _ s; simp [retryLoop]
  | succ fuel ih =>
    intro attempt hout s
    cases ho : oracle attempt with
    | true => simp [retryLoop, ho] at hout
    | false =>
      simp only [retryLoop, ho, Bool.false_eq_true, if_false] at hout ⊢
      intro hmem
      rcases List.mem_cons.mp hmem with h | h
      · exact Event.noConfusion h
      rcases List.mem_cons.mp h with h2 | h2
      · exact Event.noConfusion h2
      · exact ih (attempt + 1) hout s h2

theorem retryLoop_submit_eq (ops : List UserOperation) (keep : List QueueEntry)
    (oracle : Nat → Bool) (fuel : Nat) : ∀ attempt (ops' : List UserOperation),
    Event.submit ops' ∈ (retryLoop ops keep oracle attempt fuel).1 → ops' = ops := by
  induction fuel with
  | zero => intro attempt ops' h; simp [retryLoop] at h
  | succ fuel ih =>
    intro attempt ops' h
    cases ho : oracle attempt with
    | true =>
      simp only [retryLoop, ho, if_true] at h
      rcases List.mem_cons.mp h with h1 | h1
      · exact (Event.submit.injEq ops' ops).mp h1
      rcases List.mem_cons.mp h1 with h2 | h2
      · exact Event.noConfusion h2
      · cases h2
    | false =>
      simp only [retryLoop, ho, Bool.false_eq_true, if_false] at h
      rcases List.mem_cons.mp h with h1 | h1
      · exact (Event.submit.injEq ops' ops).mp h1
      rcases List.mem_cons.mp h1 with h2 | h2
      · exact Event.noConfusion h2
      · exact ih (attempt + 1) ops' h2

theorem retryLoop_no_feeQuery (ops : List UserOperation) (keep : List QueueEntry)
    (oracle : Nat → Bool) (fuel : Nat) : ∀ attempt,
    Event.feeQuery ∉ (retryLoop ops keep oracle attempt fuel).1 := by
  induction fuel with
  | zero => intro attempt; simp [retryLoop]
  | succ fuel ih =>
    intro attempt
    cases ho : oracle attempt with
    | true =>
      simp only [retryLoop, ho, if_true]
      intro h
      rcases List.mem_cons.mp h with h1 | h1
      · exact Event.noConfusion h1
      rcases List.mem_cons.mp h1 with h2 | h2
      · exact Event.noConfusion h2
      · cases h2
    | false =>
      simp only [retryLoop, ho, Bool.false_eq_true, if_false]
      intro h
      rcases List.mem_cons.mp h with h1 | h1
      · exact Event.noConfusion h1
      rcases List.mem_cons.mp h1 with h2 | h2
      · exact Event.noConfusion h2
      · exact ih (attempt + 1) h2

theorem finalStore_of_no_save (initial : List QueueEntry) (events : List Event)
    (h : ∀ s, Event.save s ∉ events) : finalStore initial events = initial := by
  induction events with
  | nil => rfl
  | cons e es ih =>
    have h' : ∀ s, Event.save s ∉ es := fun s hs => h s (List.mem_cons_of_mem e hs)
    cases e with
    | save s => exact absurd (List.mem_cons_self _ _) (h s)
    | feeQuery => simpa [finalStore] using ih h'
    | submit ops => simpa [finalStore] using ih h'
    | sleep n => simpa [finalStore] using ih h'

theorem mainRun_empty (args : Args) (policy : Policy) (feeOracle : Option Nat)
    (oracle : Nat → Bool) :
    mainRun args policy [] feeOracle oracle = ([], Outcome.emptyQueue) := by
  simp [mainRun]

theorem mainRun_nothingSelected (args : Args) (policy : Policy) (queue : List QueueEntry)
    (feeOracle : Option Nat) (oracle : Nat → Bool) (hq : queue ≠ [])
    (hsent : (select policy args.maxPerTargetPerMin queue).sent = []) :
    mainRun args policy queue feeOracle oracle = ([], Outcome.nothingSelected) := by
  have hlen : ¬ queue.length = 0 := fun h => hq (List.length_eq_zero.mp h)
  simp [mainRun, hlen, hsent]

theorem mainRun_estimationError (args : Args) (policy : Policy) (queue : List QueueEntry)
    (oracle : Nat → Bool) (hq : queue ≠ [])
    (hsent : (select policy args.maxPerTargetPerMin queue).sent ≠ []) :
    mainRun args policy queue none oracle = ([Event.feeQuery], Outcome.estimationError) := by
  have hlen : ¬ queue.length = 0 := fun h => hq (List.length_eq_zero.mp h)
  have hslen : ¬ ((select policy args.maxPerTargetPerMin queue).sent.map QueueEntry.op).length = 0 := by
    simp only [List.length_map]
    exact fun h => hsent (List.length_eq_zero.mp h)
  simp [mainRun, hlen, hslen, hsent]

theorem mainRun_dryRun (args : Args) (policy : Policy) (queue : List QueueEntry)
    (base : Nat) (oracle : Nat → Bool) (hq : queue ≠ [])
    (hsent : (select policy args.maxPerTargetPerMin queue).sent ≠ [])
    (hdry : args.dryRun = true) :
    mainRun args policy queue (some base) oracle =
      ([Event.feeQuery],
        Outcome.dryRun (((select policy args.maxPerTargetPerMin queue).sent.map
          QueueEntry.op).map (backfillOp (estimateFees base))).length) := by
  have hlen : ¬ queue.length = 0 := fun h => hq (List.length_eq_zero.mp h)
  have hslen : ¬ ((select policy args.maxPerTargetPerMin queue).sent.map QueueEntry.op).length = 0 := by
    simp only [List.length_map]
    exact fun h => hsent (List.length_eq_zero.mp h)
  simp [mainRun, hlen, hslen, hsent, hdry]

theorem mainRun_submitPhase (args : Args) (policy : Policy) (queue : List QueueEntry)
    (base : Nat) (oracle : Nat → Bool) (hq : queue ≠ [])
    (hsent : (select policy args.maxPerTargetPerMin queue).sent ≠ [])
    (hdry : args.dryRun = false) :
    mainRun args policy queue (some base) oracle =
      (Event.feeQuery ::
        (retryLoop (((select policy args.maxPerTargetPerMin queue).sent.map QueueEntry.op).map
            (backfillOp (estimateFees base)))
          (select policy args.maxPerTargetPerMin queue).keep oracle 0 5).1,
       (retryLoop (((select policy args.maxPerTargetPerMin queue).sent.map QueueEntry.op).map
            (backfillOp (estimateFees base)))
          (select policy args.maxPerTargetPerMin queue).keep oracle 0 5).2) := by
  have hlen : ¬ queue.length = 0 := fun h => hq (List.length_eq_zero.mp h)
  have hslen : ¬ ((select policy args.maxPerTargetPerMin queue).sent.map QueueEntry.op).length = 0 := by
    simp only [List.length_map]
    exact fun h => hsent (List.length_eq_zero.mp h)
  simp [mainRun, hlen, hslen, hsent, hdry]

/-! ### Concrete fixtures for witnesses and counterexamples -/

/-- A policy-conforming operation with explicitly set (non-zero) fee fields. -/
def opA : UserOperation :=
  { sender := "0x1111111111111111111111111111111111111111"
    nonce := "0x0"
    initCode := "0x"
    callData := "0xdeadbeef"
    callGasLimit := "0x5208"
    verificationGasLimit := "0x5208"
    preVerificationGas := "0x5208"
    maxFeePerGas := "0x1"
    maxPriorityFeePerGas := "0x1"
    paymasterAndData := "0x"
    signature := "0xabcdef" }

/-- Like `opA` but with both fee fields unset (the `"0x0"` sentinel). -/
def opZ : UserOperation :=
  { opA with maxFeePerGas := "0x0", maxPriorityFeePerGas := "0x0" }

/-- Zero-valued (`"0x00"`) and digitless (`"0x"`) fee encodings that are not
the exact `"0x0"` sentinel. -/
def op00 : UserOperation :=
  { opA with maxFeePerGas := "0x00", maxPriorityFeePerGas := "0x" }

/-- An operation whose `maxFeePerGas` is 300 gwei in wei, 50% above the
policy ceiling of 200 gwei. -/
def opFeeTooHigh : UserOperation :=
  { opA with maxFeePerGas := "0x45d964b800" }

def entryA : QueueEntry :=
  { op := opA, target := "0xAaAa", session := "s1", createdAt := 1 }

/-! ### Claim theorems -/

/-- C1 (code_bug evidence): `validate` never reports a fee violation.  With
the source's own `POLICY` (ceiling 200 gwei) and an operation whose parsed
`maxFeePerGas` is 300 gwei — strictly above the parsed ceiling — `validate`
returns the empty violation list, because the fee-comparison `if` bodies in
the source are empty.  The claim that a violation string is returned is
therefore right about the intent and wrong about the code. -/
theorem c1_validate_misses_fee_violation :
    validate POLICY opFeeTooHigh = [] ∧
      hexToNatD opFeeTooHigh.maxFeePerGas >
        hexToNatD (gweiToWeiHex POLICY.maxFeeGwei) := by
  constructor
  · rfl
  · rw [show gweiToWeiHex POLICY.maxFeeGwei = toHex (200 * 1000000000) from rfl,
      hexToNatD_toHex]
    decide

/-- C6: the fee backfill.  A selected operation with `maxFeePerGas = "0x0"`
gets `2 * base` (as the hex string the source writes, whose parsed value is
`2 * base`); if its priority fee was also `"0x0"` it gets `base / 10`
(integer division); non-`"0x0"` fields are never modified.  The final
conjunct ties this to the run: every `submit` event of `mainRun` carries
exactly the selected operations mapped through this backfill. -/
theorem c6_fee_backfill (base : Nat) (op : UserOperation) :
    (op.maxFeePerGas = "0x0" →
      (backfillOp (estimateFees base) op).maxFeePerGas = toHex (base * 2) ∧
        hexToNatD (backfillOp (estimateFees base) op).maxFeePerGas = 2 * base) ∧
      (op.maxFeePerGas = "0x0" → op.maxPriorityFeePerGas = "0x0" →
        hexToNatD (backfillOp (estimateFees base) op).maxPriorityFeePerGas = base / 10) ∧
      (op.maxFeePerGas ≠ "0x0" →
        (backfillOp (estimateFees base) op).maxFeePerGas = op.maxFeePerGas) ∧
      (op.maxPriorityFeePerGas ≠ "0x0" →
        (backfillOp (estimateFees base) op).maxPriorityFeePerGas = op.maxPriorityFeePerGas) ∧
      ∀ (args : Args) (policy : Policy) (queue : List QueueEntry) (oracle : Nat → Bool)
        (ops' : List UserOperation),
        Event.submit ops' ∈ (mainRun args policy queue (some base) oracle).1 →
        ops' = ((select policy args.maxPerTargetPerMin queue).sent.map QueueEntry.op).map
          (backfillOp (estimateFees base)) := by
  refine ⟨?_, ?_, ?_, ?_, ?_⟩
  · intro h1
    by_cases h2 : op.maxPriorityFeePerGas = "0x0" <;>
      simp [backfillOp, estimateFees, h1, h2, hexToNatD_toHex, Nat.mul_comm]
  · intro h1 h2
    simp [backfillOp, estimateFees, h1, h2, hexToNatD_toHex]
  · intro h1
    by_cases h2 : op.maxPriorityFeePerGas = "0x0" <;>
      simp [backfillOp, estimateFees, h1, h2]
  · intro h2
    by_cases h1 : op.maxFeePerGas = "0x0" <;>
      simp [backfillOp, estimateFees, h1, h2]
  · intro args policy queue oracle ops' hmem
    by_cases hq : queue = []
    · subst hq; rw [mainRun_empty] at hmem; cases hmem
    · by_cases hsent : (select policy args.maxPerTargetPerMin queue).sent = []
      · rw [mainRun_nothingSelected args policy queue (some base) oracle hq hsent] at hmem
        cases hmem
      · cases hdry : args.dryRun with
        | true =>
          rw [mainRun_dryRun args policy queue base oracle hq hsent hdry] at hmem
          rcases List.mem_cons.mp hmem with h | h
          · exact Event.noConfusion h
          · cases h
        | false =>
          rw [mainRun_submitPhase args policy queue base oracle hq hsent hdry] at hmem
          rcases List.mem_cons.mp hmem with h | h
          · exact Event.noConfusion h
          · exact retryLoop_submit_eq _ _ oracle 5 0 ops' h

/-- C6 witness: with base fee 100, a zero-fee operation is sent with parsed
`maxFeePerGas` 200 and parsed `maxPriorityFeePerGas` 10. -/
theorem c6_fee_backfill_witness :
    hexToNatD (backfillOp (estimateFees 100) opZ).maxFeePerGas = 200 ∧
      hexToNatD (backfillOp (estimateFees 100) opZ).maxPriorityFeePerGas = 10 := by
  refine ⟨?_, ?_⟩
  · have h := ((c6_fee_backfill 100 opZ).1 rfl).2
    simpa using h
  · have h := (c6_fee_backfill 100 opZ).2.1 rfl rfl
    simpa using h

/-- C10: the backfill detects an unset fee by exact string equality with
`"0x0"`: any other encoding — including `"0x00"`, which parses to the numeric
value 0, and `"0x"`, which `BigInt` would reject (so it has no numeric value
at all, though the backfill never parses it) — is left unchanged. -/
theorem c10_backfill_exact_match_only (fees : Fees) (op : UserOperation) :
    (op.maxFeePerGas ≠ "0x0" → (backfillOp fees op).maxFeePerGas = op.maxFeePerGas) ∧
      (op.maxPriorityFeePerGas ≠ "0x0" →
        (backfillOp fees op).maxPriorityFeePerGas = op.maxPriorityFeePerGas) ∧
      hexToNat? "0x00" = some 0 ∧ hexToNat? "0x" = none ∧ ("0x00" : String) ≠ "0x0" := by
  refine ⟨?_, ?_, by decide, by decide, by decide⟩
  · intro h1
    by_cases h2 : op.maxPriorityFeePerGas = "0x0" <;> simp [backfillOp, h1, h2]
  · intro h2
    by_cases h1 : op.maxFeePerGas = "0x0" <;> simp [backfillOp, h1, h2]

/-- C10 witness: with base fee 100, an operation carrying `"0x00"` and `"0x"`
fee encodings is not backfilled in either field. -/
theorem c10_backfill_exact_match_only_witness :
    (backfillOp (estimateFees 100) op00).maxFeePerGas = "0x00" ∧
      (backfillOp (estimateFees 100) op00).maxPriorityFeePerGas = "0x" :=
  ⟨(c10_backfill_exact_match_only (estimateFees 100) op00).1 (by decide),
   (c10_backfill_exact_match_only (estimateFees 100) op00).2.1 (by decide)⟩

/-- C2: whenever a run's outcome is `exhausted` (all 5 submission attempts
failed), no `save` was performed and the persisted store equals the pre-run
store, so every entry — including the ones selected for sending — is still
present. -/
theorem c2_exhausted_preserves_store (args : Args) (policy : Policy)
    (queue : List QueueEntry) (feeOracle : Option Nat) (oracle : Nat → Bool)
    (h : (mainRun args policy queue feeOracle oracle).2 = Outcome.exhausted) :
    (∀ s, Event.save s ∉ (mainRun args policy queue feeOracle oracle).1) ∧
      finalStore queue (mainRun args policy queue feeOracle oracle).1 = queue := by
  have hns : ∀ s, Event.save s ∉ (mainRun args policy queue feeOracle oracle).1 := by
    by_cases hq : queue = []
    · subst hq
      rw [mainRun_empty] at h
      cases h
    · by_cases hsent : (select policy args.maxPerTargetPerMin queue).sent = []
      · rw [mainRun_nothingSelected args policy queue feeOracle oracle hq hsent] at h
        cases h
      · cases feeOracle with
        | none =>
          rw [mainRun_estimationError args policy queue oracle hq hsent] at h
          cases h
        | some base =>
          cases hdry : args.dryRun with
          | true =>
            rw [mainRun_dryRun args policy queue base oracle hq hsent hdry] at h
            cases h
          | false =>
            rw [mainRun_submitPhase args policy queue base oracle hq hsent hdry] at h
            intro s
            rw [mainRun_submitPhase args policy queue base oracle hq hsent hdry]
            intro hmem
            rcases List.mem_cons.mp hmem with h1 | h1
            · exact Event.noConfusion h1
            · exact retryLoop_no_save_of_exhausted _ _ oracle 5 0 h s h1
  exact ⟨hns, finalStore_of_no_save queue _ hns⟩

/-- C2 witness: a concrete run whose five attempts all fail ends `exhausted`
and leaves the store exactly as loaded. -/
theorem c2_exhausted_preserves_store_witness :
    (mainRun defaultArgs POLICY [entryA] (some 100) (fun _ => false)).2 =
        Outcome.exhausted ∧
      finalStore [entryA]
        (mainRun defaultArgs POLICY [entryA] (some 100) (fun _ => false)).1 = [entryA] :=
  ⟨by decide,
   (c2_exhausted_preserves_store defaultArgs POLICY [entryA] (some 100) (fun _ => false)
      (by decide)).2⟩

theorem pickedPass_dropped_complete (policy : Policy) (t : String)
    (hb : policy.blockedTargets.contains t = false) (l : List QueueEntry) :
    ∀ e ∈ l, validate policy e.op ≠ [] → e ∈ (pickedPass policy t l).dropped := by
  induction l with
  | nil => intro e he; cases he
  | cons it its ih =>
    intro e he hv
    rcases List.mem_cons.mp he with h1 | h1
    · subst h1
      rw [pickedPass_cons_dropped policy t e its hb hv]
      exact List.mem_cons_self _ _
    · by_cases hvit : validate policy it.op = []
      · rw [pickedPass_cons_sent policy t it its hb hvit]
        exact ih e h1 hv
      · rw [pickedPass_cons_dropped policy t it its hb hvit]
        exact List.mem_cons_of_mem it (ih e h1 hv)

/-- C3: `select` partitions the queue — sent, kept and dropped entries are a
permutation of the queue (each entry lands in exactly one bucket); dropped
entries are exactly validation failures (and never blocked ones, which are
kept); every entry of a blocked target is retained; every entry beyond the
per-target cap is retained; and a rate-limit survivor of an unblocked target
that fails validation is dropped. -/
theorem c3_select_partitions (policy : Policy) (cap : Nat) (queue : List QueueEntry) :
    ((select policy cap queue).sent ++ (select policy cap queue).keep ++
        (select policy cap queue).dropped).Perm queue ∧
      (∀ e ∈ (select policy cap queue).dropped, validate policy e.op ≠ [] ∧ e ∈ queue) ∧
      (∀ e ∈ queue, e.target.toLower ∈ policy.blockedTargets →
        e ∈ (select policy cap queue).keep) ∧
      (∀ t : String, ∀ e ∈ (queue.filter (keyIs t)).drop cap,
        e ∈ (select policy cap queue).keep) ∧
      (∀ t : String, policy.blockedTargets.contains t = false →
        ∀ e ∈ (queue.filter (keyIs t)).take cap, validate policy e.op ≠ [] →
        e ∈ (select policy cap queue).dropped) := by
  refine ⟨select_perm policy cap queue,
    fun e he => select_dropped_spec policy cap queue e he,
    fun e he hb => select_blocked_kept policy cap queue e he hb,
    fun t e he => select_overcap_kept policy cap queue t e he,
    ?_⟩
  intro t hb e he hv
  have hef : e ∈ queue.filter (keyIs t) := List.take_subset cap _ he
  have hne := groupsLookup_ne_nil_of_mem queue t e hef
  have hmem := mem_of_groupsLookup_ne_nil (groupByTarget queue) t hne
  have hlk : groupsLookup (groupByTarget queue) t = queue.filter (keyIs t) :=
    groupsLookup_groupByTarget queue t
  rw [select_dropped_def]
  refine List.mem_flatten.mpr
    ⟨(selectGroup policy cap t (groupsLookup (groupByTarget queue) t)).dropped, ?_, ?_⟩
  · exact List.mem_map_of_mem SelectResult.dropped
      (List.mem_map_of_mem (fun p => selectGroup policy cap p.1 p.2) hmem)
  · rw [selectGroup_eq, hlk]
    exact pickedPass_dropped_complete policy t hb _ e he hv

/-- C3 witness: partition at a concrete queue. -/
theorem c3_select_partitions_witness :
    ((select POLICY 20 [entryA]).sent ++ (select POLICY 20 [entryA]).keep ++
      (select POLICY 20 [entryA]).dropped).Perm [entryA] :=
  (c3_select_partitions POLICY 20 [entryA]).1

/-- C4: per-target rate limiting.  For any target key `t`: at most `cap`
entries for `t` are sent in one run, the sent entries for `t` form a sublist
(i.e. a FIFO-ordered subselection) of the first `cap` entries for `t` in
queue order — precisely the survivors of the validation loop over those
candidates — and every later entry for `t` is retained unconditionally. -/
theorem c4_rate_limit_fifo (policy : Policy) (cap : Nat) (queue : List QueueEntry)
    (t : String) :
    ((select policy cap queue).sent.filter (keyIs t)).length ≤ cap ∧
      ((select policy cap queue).sent.filter (keyIs t)).Sublist
        ((queue.filter (keyIs t)).take cap) ∧
      ((select policy cap queue).sent.filter (keyIs t)) =
        (pickedPass policy t ((queue.filter (keyIs t)).take cap)).sent ∧
      (∀ e ∈ (queue.filter (keyIs t)).drop cap, e ∈ (select policy cap queue).keep) := by
  have hs := select_sent_filter policy cap queue t
  have hsub : ((select policy cap queue).sent.filter (keyIs t)).Sublist
      ((queue.filter (keyIs t)).take cap) := by
    rw [hs]
    exact pickedPass_sent_sublist policy t _
  refine ⟨?_, hsub, hs, fun e he => select_overcap_kept policy cap queue t e he⟩
  calc ((select policy cap queue).sent.filter (keyIs t)).length
      ≤ ((queue.filter (keyIs t)).take cap).length := hsub.length_le
    _ ≤ cap := List.length_take_le cap _

/-- C4 witness: the sent count for the concrete target stays within the cap. -/
theorem c4_rate_limit_fifo_witness :
    ((select POLICY 20 [entryA]).sent.filter (keyIs "0xaaaa")).length ≤ 20 :=
  (c4_rate_limit_fifo POLICY 20 [entryA] "0xaaaa").1

theorem retryLoop_fail4_succ5 (ops : List UserOperation) (keep : List QueueEntry)
    (oracle : Nat → Bool) (hfail : ∀ n, n < 4 → oracle n = false)
    (hsucc : oracle 4 = true) :
    retryLoop ops keep oracle 0 5 =
      ([Event.submit ops, Event.sleep 2, Event.submit ops, Event.sleep 4,
        Event.submit ops, Event.sleep 8, Event.submit ops, Event.sleep 16,
        Event.submit ops, Event.save keep], Outcome.success) := by
  have h0 := hfail 0 (by omega)
  have h1 := hfail 1 (by omega)
  have h2 := hfail 2 (by omega)
  have h3 := hfail 3 (by omega)
  simp [retryLoop, h0, h1, h2, h3, hsucc]

/-- C5: in a run whose submission fails four times and succeeds on the fifth
attempt, the pipeline sleeps 2, 4, 8 and 16 seconds between consecutive
attempts (each `min(60, 2^n)` after the n-th failure) and the store is
saved exactly once, after the fifth attempt's successful submit — never
before. -/
theorem c5_backoff_and_late_persist (args : Args) (policy : Policy)
    (queue : List QueueEntry) (base : Nat) (oracle : Nat → Bool)
    (hq : queue ≠ [])
    (hsent : (select policy args.maxPerTargetPerMin queue).sent ≠ [])
    (hdry : args.dryRun = false)
    (hfail : ∀ n, n < 4 → oracle n = false) (hsucc : oracle 4 = true) :
    mainRun args policy queue (some base) oracle =
      ([Event.feeQuery,
        Event.submit (((select policy args.maxPerTargetPerMin queue).sent.map
          QueueEntry.op).map (backfillOp (estimateFees base))),
        Event.sleep 2,
        Event.submit (((select policy args.maxPerTargetPerMin queue).sent.map
          QueueEntry.op).map (backfillOp (estimateFees base))),
        Event.sleep 4,
        Event.submit (((select policy args.maxPerTargetPerMin queue).sent.map
          QueueEntry.op).map (backfillOp (estimateFees base))),
        Event.sleep 8,
        Event.submit (((select policy args.maxPerTargetPerMin queue).sent.map
          QueueEntry.op).map (backfillOp (estimateFees base))),
        Event.sleep 16,
        Event.submit (((select policy args.maxPerTargetPerMin queue).sent.map
          QueueEntry.op).map (backfillOp (estimateFees base))),
        Event.save (select policy args.maxPerTargetPerMin queue).keep],
       Outcome.success) := by
  rw [mainRun_submitPhase args policy queue base oracle hq hsent hdry,
    retryLoop_fail4_succ5 _ _ oracle hfail hsucc]

/-- C5 witness: the concrete trace of a fail-four-then-succeed run. -/
theorem c5_backoff_and_late_persist_witness :
    mainRun defaultArgs POLICY [entryA] (some 100) (fun n => decide (n = 4)) =
      ([Event.feeQuery,
        Event.submit (((select POLICY defaultArgs.maxPerTargetPerMin [entryA]).sent.map
          QueueEntry.op).map (backfillOp (estimateFees 100))),
        Event.sleep 2,
        Event.submit (((select POLICY defaultArgs.maxPerTargetPerMin [entryA]).sent.map
          QueueEntry.op).map (backfillOp (estimateFees 100))),
        Event.sleep 4,
        Event.submit (((select POLICY defaultArgs.maxPerTargetPerMin [entryA]).sent.map
          QueueEntry.op).map (backfillOp (estimateFees 100))),
        Event.sleep 8,
        Event.submit (((select POLICY defaultArgs.maxPerTargetPerMin [entryA]).sent.map
          QueueEntry.op).map (backfillOp (estimateFees 100))),
        Event.sleep 16,
        Event.submit (((select POLICY defaultArgs.maxPerTargetPerMin [entryA]).sent.map
          QueueEntry.op).map (backfillOp (estimateFees 100))),
        Event.save (select POLICY defaultArgs.maxPerTargetPerMin [entryA]).keep],
       Outcome.success) :=
  c5_backoff_and_late_persist defaultArgs POLICY [entryA] 100 (fun n => decide (n = 4))
    (by decide) (by decide) rfl
    (by intro n hn; simp only [decide_eq_false_iff_not]; omega) (by decide)

/-- C7 counterexample: a run whose selected operation has both fee fields set
(non-zero) still performs the fee-price query, so "no fee-price query is made
when every selected operation has non-zero fees" fails on the code. -/
theorem c7_fee_query_despite_set_fees :
    Event.feeQuery ∈ (mainRun defaultArgs POLICY [entryA] (some 100) (fun _ => true)).1 ∧
      ∀ e ∈ (select POLICY defaultArgs.maxPerTargetPerMin [entryA]).sent,
        e.op.maxFeePerGas ≠ "0x0" ∧ e.op.maxPriorityFeePerGas ≠ "0x0" := by
  constructor
  · decide
  · decide

/-- C7 amended: the fee query is made exactly once in every run that selects
at least one operation for sending, regardless of the fee fields of the
selected operations (the source calls `estimateFees` unconditionally before
the backfill loop); runs that select nothing make no query. -/
theorem c7_fee_query_once_per_submission_run (args : Args) (policy : Policy)
    (queue : List QueueEntry) (feeOracle : Option Nat) (oracle : Nat → Bool)
    (hq : queue ≠ [])
    (hsent : (select policy args.maxPerTargetPerMin queue).sent ≠ []) :
    ((mainRun args policy queue feeOracle oracle).1.count Event.feeQuery) = 1 := by
  cases feeOracle with
  | none =>
    rw [mainRun_estimationError args policy queue oracle hq hsent]
    rfl
  | some base =>
    cases hdry : args.dryRun with
    | true =>
      rw [mainRun_dryRun args policy queue base oracle hq hsent hdry]
      rfl
    | false =>
      rw [mainRun_submitPhase args policy queue base oracle hq hsent hdry]
      have hno : Event.feeQuery ∉
          (retryLoop (((select policy args.maxPerTargetPerMin queue).sent.map
              QueueEntry.op).map (backfillOp (estimateFees base)))
            (select policy args.maxPerTargetPerMin queue).keep oracle 0 5).1 :=
        retryLoop_no_feeQuery _ _ oracle 5 0
      rw [List.count_cons_self, List.count_eq_zero.mpr hno]

/-- C7 amended witness: exactly one fee query in a concrete run whose
selected operation has both fees set. -/
theorem c7_fee_query_once_per_submission_run_witness :
    ((mainRun defaultArgs POLICY [entryA] (some 100) (fun _ => true)).1.count
      Event.feeQuery) = 1 :=
  c7_fee_query_once_per_submission_run defaultArgs POLICY [entryA] (some 100)
    (fun _ => true) (by decide) (by decide)

/-- C8: a run on an empty queue, or a run that selects nothing for sending,
produces no events at all — no fee query, no submission, no save — and the
persisted store is the pre-run store. -/
theorem c8_noop_run (args : Args) (policy : Policy) (queue : List QueueEntry)
    (feeOracle : Option Nat) (oracle : Nat → Bool)
    (h : queue = [] ∨ (select policy args.maxPerTargetPerMin queue).sent = []) :
    (mainRun args policy queue feeOracle oracle).1 = [] ∧
      finalStore queue (mainRun args policy queue feeOracle oracle).1 = queue := by
  have hev : (mainRun args policy queue feeOracle oracle).1 = [] := by
    by_cases hq : queue = []
    · subst hq
      rw [mainRun_empty]
    · rcases h with h | h
      · exact absurd h hq
      · rw [mainRun_nothingSelected args policy queue feeOracle oracle hq h]
  refine ⟨hev, ?_⟩
  rw [hev]
  rfl

/-- C8 witness: the empty-queue run is a strict no-op. -/
theorem c8_noop_run_witness :
    (mainRun defaultArgs POLICY [] (some 100) (fun _ => true)).1 = [] ∧
      finalStore [] (mainRun defaultArgs POLICY [] (some 100) (fun _ => true)).1 = [] :=
  c8_noop_run defaultArgs POLICY [] (some 100) (fun _ => true) (Or.inl rfl)

/-- C9: if the fee query fails (the RPC call errors or returns a non-numeric
result) in a run that reaches it, the run ends with `estimationError` right
after the query: no submission is ever attempted, nothing is saved, and the
persisted store is the pre-run store. -/
theorem c9_estimation_error_aborts (args : Args) (policy : Policy)
    (queue : List QueueEntry) (oracle : Nat → Bool)
    (hq : queue ≠ [])
    (hsent : (select policy args.maxPerTargetPerMin queue).sent ≠ []) :
    mainRun args policy queue none oracle = ([Event.feeQuery], Outcome.estimationError) ∧
      (∀ ops, Event.submit ops ∉ (mainRun args policy queue none oracle).1) ∧
      (∀ s, Event.save s ∉ (mainRun args policy queue none oracle).1) ∧
      finalStore queue (mainRun args policy queue none oracle).1 = queue := by
  have h := mainRun_estimationError args policy queue oracle hq hsent
  refine ⟨h, ?_, ?_, ?_⟩
  · intro ops
    rw [h]
    intro hmem
    rcases List.mem_cons.mp hmem with h1 | h1
    · exact Event.noConfusion h1
    · cases h1
  · intro s
    rw [h]
    intro hmem
    rcases List.mem_cons.mp hmem with h1 | h1
    · exact Event.noConfusion h1
    · cases h1
  · rw [h]
    rfl

/-- C9 witness: the concrete aborted run. -/
theorem c9_estimation_error_aborts_witness :
    mainRun defaultArgs POLICY [entryA] none (fun _ => true) =
      ([Event.feeQuery], Outcome.estimationError) :=
  (c9_estimation_error_aborts defaultArgs POLICY [entryA] (fun _ => true)
    (by decide) (by decide)).1
